import Mathlib

/-!
Verification of the word-optimized byte-copy routine from
`arch/riscv/lib/string.c` (`__memcpy` and its helper `__memcpy_aligned`).

The C code is shallowly embedded: memory is a function from byte addresses
(`Nat`) to byte values, machine words are `Nat` with explicit `% 2 ^ 64`
wrap where the 64-bit `unsigned long` / `size_t` arithmetic can overflow,
and every load performed by the routine is recorded in a read log so that
the read footprint of a call can be reasoned about.  Each log entry is a
pair `(address, width)`: a `u8` load is `(a, 1)` and an `unsigned long`
load is `(a, 8)`.
-/

/-- `BYTES_LONG` from the source: `sizeof(long)` on a 64-bit target. -/
def BYTES_LONG : Nat := 8

/-- `WORD_MASK = BYTES_LONG - 1`. -/
def WORD_MASK : Nat := BYTES_LONG - 1

/-- `MIN_THRESHOLD = BYTES_LONG * 2`: minimum size for a word copy. -/
def MIN_THRESHOLD : Nat := BYTES_LONG * 2

/-- Modulus of the 64-bit `size_t` / `unsigned long` arithmetic. -/
def SIZE_BOUND : Nat := 2 ^ 64

/-- Byte-addressed memory. -/
def Mem : Type := Nat → Nat

/-- Reading a `u8`: values are reduced mod 256 as the C type forces. -/
def getByte (m : Mem) (a : Nat) : Nat := m a % 256

/-- Writing a `u8`. -/
def setByte (m : Mem) (a v : Nat) : Mem :=
  fun x => if x = a then v % 256 else m x

/-- Little-endian read of `n` consecutive bytes as a number
(byte at the lowest address is least significant). -/
def loadBytes (m : Mem) (a : Nat) : Nat → Nat
  | 0 => 0
  | n + 1 => getByte m a + 256 * loadBytes m (a + 1) n

/-- A little-endian `unsigned long` load (`*(unsigned long *)a`). -/
def loadWord (m : Mem) (a : Nat) : Nat := loadBytes m a BYTES_LONG

/-- A little-endian `unsigned long` store (`*(unsigned long *)a = w`). -/
def storeWord (m : Mem) (a w : Nat) : Mem :=
  fun x => if a ≤ x ∧ x < a + BYTES_LONG then w / 256 ^ (x - a) % 256 else m x

/-- A `size_t` decrement `count--` with 64-bit wraparound. -/
def sub1w (c : Nat) : Nat := (c + (SIZE_BOUND - 1)) % SIZE_BOUND

/-- State carried by the loops of `__memcpy`: memory, the two byte
pointers, the running count, and the log of loads performed. -/
structure LoopState where
  mem : Mem
  d : Nat
  s : Nat
  count : Nat
  reads : List (Nat × Nat)

/-- The tail loop `copy_remainder: while (count--) *d.as_u8++ = *s.as_u8++;`. -/
def copy_remainder (m : Mem) (d s : Nat) : Nat → Mem × List (Nat × Nat)
  | 0 => (m, [])
  | n + 1 =>
    let r := copy_remainder (setByte m d (getByte m s)) (d + 1) (s + 1) n
    (r.1, (s, 1) :: r.2)

/-- The destination-alignment loop
`for (; d.as_uptr & WORD_MASK; count--) *d.as_u8++ = *s.as_u8++;`.
The decrement of the `size_t` count wraps via `sub1w`. -/
def alignLoop (m : Mem) (d s cnt : Nat) : LoopState :=
  if h : d &&& WORD_MASK = 0 then ⟨m, d, s, cnt, []⟩
  else
    let r := alignLoop (setByte m d (getByte m s)) (d + 1) (s + 1) (sub1w cnt)
    ⟨r.mem, r.d, r.s, r.count, (s, 1) :: r.reads⟩
termination_by (BYTES_LONG - d % BYTES_LONG) % BYTES_LONG
decreasing_by
  have h7 : d &&& WORD_MASK = d % 8 := by
    have := Nat.and_pow_two_sub_one_eq_mod d 3
    simpa [WORD_MASK, BYTES_LONG] using this
  rw [h7] at h
  simp only [BYTES_LONG]
  omega

/-- The shift-merge of two consecutive aligned source words:
`last >> (distance * 8) | next << ((BYTES_LONG - distance) * 8)`,
with the 64-bit wrap of the `unsigned long` left shift made explicit. -/
def mergeWord (last next dist : Nat) : Nat :=
  (last >>> (dist * 8)) ||| ((next <<< ((BYTES_LONG - dist) * 8)) % SIZE_BOUND)

/-- The shift-merge word loop of `__memcpy`
(`for (; count >= BYTES_LONG; count -= BYTES_LONG) { last = next; next = s.as_ulong[1]; d.as_ulong[0] = last >> ... | next << ...; d.as_ulong++; s.as_ulong++; }`).
`s` is the rewound, word-aligned source pointer; the carried word `next`
was loaded before the loop (or by the previous iteration). -/
def shiftLoop (m : Mem) (d s cnt dist next : Nat) : LoopState :=
  if _h : BYTES_LONG ≤ cnt then
    let next' := loadWord m (s + BYTES_LONG)
    let r := shiftLoop (storeWord m d (mergeWord next next' dist))
        (d + BYTES_LONG) (s + BYTES_LONG) (cnt - BYTES_LONG) dist next'
    ⟨r.mem, r.d, r.s, r.count, (s + BYTES_LONG, BYTES_LONG) :: r.reads⟩
  else ⟨m, d, s, cnt, []⟩
termination_by cnt
decreasing_by
  simp only [BYTES_LONG] at _h ⊢
  omega

/-- One iteration body of `__memcpy_aligned`: the eight word loads
`d0 = src[0]; ...; d7 = src[7];` all read the incoming memory (the
temporaries are loaded before any store), then the eight word stores
`dest[0] = d0; ...; dest[7] = d7;` are performed in order. -/
def copy_block (m : Mem) (dest src : Nat) : Mem :=
  storeWord (storeWord (storeWord (storeWord (storeWord (storeWord (storeWord
    (storeWord m dest (loadWord m src))
    (dest + 8) (loadWord m (src + 8)))
    (dest + 16) (loadWord m (src + 16)))
    (dest + 24) (loadWord m (src + 24)))
    (dest + 32) (loadWord m (src + 32)))
    (dest + 40) (loadWord m (src + 40)))
    (dest + 48) (loadWord m (src + 48)))
    (dest + 56) (loadWord m (src + 56))

/-- The word loads performed by one `__memcpy_aligned` iteration. -/
def blockReads (src : Nat) : List (Nat × Nat) :=
  [(src, 8), (src + 8, 8), (src + 16, 8), (src + 24, 8),
   (src + 32, 8), (src + 40, 8), (src + 48, 8), (src + 56, 8)]

/-- `__memcpy_aligned`: `for (; count > 0; count -= BYTES_LONG * 8) { ... }`
with the unrolled eight-word block body.  The `size_t` decrement
`count -= 64` is exact here (for a non-multiple count the C loop never
exits; that behaviour is captured by `memcpy_aligned_fuel` below, and
`__memcpy` only ever passes multiples of 64). -/
def __memcpy_aligned (m : Mem) (dest src : Nat) : Nat → Mem × List (Nat × Nat)
  | cnt =>
    if _h : 0 < cnt then
      let r := __memcpy_aligned (copy_block m dest src) (dest + BYTES_LONG * 8)
          (src + BYTES_LONG * 8) (cnt - BYTES_LONG * 8)
      (r.1, blockReads src ++ r.2)
    else (m, [])
termination_by cnt => cnt
decreasing_by
  simp only [BYTES_LONG]
  omega

/-- `__memcpy_aligned` with the exact wrapping `size_t` decrement
`count -= BYTES_LONG * 8`, bounded by a fuel counting loop iterations;
`none` means the fuel was exhausted before the loop condition
`count > 0` became false. -/
def memcpy_aligned_fuel : Nat → Mem → Nat → Nat → Nat → Option (Mem × List (Nat × Nat))
  | fuel, m, dest, src, cnt =>
    if 0 < cnt then
      match fuel with
      | 0 => none
      | f + 1 =>
        (memcpy_aligned_fuel f (copy_block m dest src) (dest + BYTES_LONG * 8)
            (src + BYTES_LONG * 8) ((cnt + (SIZE_BOUND - BYTES_LONG * 8)) % SIZE_BOUND)).map
          (fun r => (r.1, blockReads src ++ r.2))
    else some (m, [])

/-- `aligned_count = count & ~(BYTES_LONG * 8 - 1)`: on the 64-bit type,
bitwise NOT of `63` is XOR with the all-ones word. -/
def alignedCount (cnt : Nat) : Nat :=
  cnt &&& ((BYTES_LONG * 8 - 1) ^^^ (SIZE_BOUND - 1))

/-- The copy routine `__memcpy(dest, src, count)` of
`arch/riscv/lib/string.c`, parametrized by the build-time flag
`IS_ENABLED(CONFIG_HAVE_EFFICIENT_UNALIGNED_ACCESS)` (`eff`).  Returns
the final memory, the log of all loads performed, and the returned
pointer value. -/
def __memcpy (eff : Bool) (m : Mem) (dest src count : Nat) :
    Mem × List (Nat × Nat) × Nat :=
  if count < MIN_THRESHOLD then
    let r := copy_remainder m dest src count
    (r.1, r.2, dest)
  else
    let p : LoopState := if eff then ⟨m, dest, src, count, []⟩
      else alignLoop m dest src count
    let distance : Nat := if eff then 0 else p.s &&& WORD_MASK
    if distance ≠ 0 then
      let sA := p.s - distance
      let next := loadWord p.mem sA
      let q := shiftLoop p.mem p.d sA p.count distance next
      let r := copy_remainder q.mem q.d (q.s + distance) q.count
      (r.1, p.reads ++ (sA, BYTES_LONG) :: q.reads ++ r.2, dest)
    else
      let ac := alignedCount p.count
      let q := __memcpy_aligned p.mem p.d p.s ac
      let r := copy_remainder q.1 (p.d + ac) (p.s + ac)
          (p.count &&& (BYTES_LONG * 8 - 1))
      (r.1, p.reads ++ q.2 ++ r.2, dest)

/-- Modelled from the spec: the "trivial reference byte-copy" that the
spec's testable properties compare `__memcpy` against — destination
bytes `[d, d+c)` take the original source bytes, all else unchanged. -/
def refByteCopy (m : Mem) (d s c : Nat) : Mem :=
  fun x => if d ≤ x ∧ x < d + c then getByte m (s + (x - d)) else m x

/-- Whether the byte at address `x` is covered by some entry of a read
log (an entry `(a, w)` covers addresses `[a, a+w)`). -/
def readsByte (l : List (Nat × Nat)) (x : Nat) : Bool :=
  l.any fun p => decide (p.1 ≤ x) && decide (x < p.1 + p.2)

/-- Number of iterations of the destination-alignment loop: the number
of bytes needed to bring `d` to the next word boundary. -/
def kAlign (d : Nat) : Nat := (8 - d % 8) % 8

/-- The `distance != 0` arm of `__memcpy` (rewind, shift-merge loop,
pointer restore, tail), as a function of the state `p` left by the
prefix phase. -/
def shiftBranch (p : LoopState) (distance : Nat) : Mem × List (Nat × Nat) :=
  let sA := p.s - distance
  let next := loadWord p.mem sA
  let q := shiftLoop p.mem p.d sA p.count distance next
  let r := copy_remainder q.mem q.d (q.s + distance) q.count
  (r.1, p.reads ++ (sA, BYTES_LONG) :: q.reads ++ r.2)

/-- The `distance = 0` arm of `__memcpy` (aligned bulk helper on the
rounded-down count, then tail), as a function of the state `p` left by
the prefix phase. -/
def alignedBranch (p : LoopState) : Mem × List (Nat × Nat) :=
  let ac := alignedCount p.count
  let q := __memcpy_aligned p.mem p.d p.s ac
  let r := copy_remainder q.1 (p.d + ac) (p.s + ac) (p.count &&& (BYTES_LONG * 8 - 1))
  (r.1, p.reads ++ q.2 ++ r.2)


/-! Basic facts about bytes, multi-byte loads and word stores. -/

theorem getByte_lt (m : Mem) (a : Nat) : getByte m a < 256 :=
  Nat.mod_lt _ (by norm_num)

theorem setByte_apply (m : Mem) (a v x : Nat) :
    setByte m a v x = if x = a then v % 256 else m x := rfl

theorem getByte_setByte (m : Mem) (a v x : Nat) :
    getByte (setByte m a v) x = if x = a then v % 256 else getByte m x := by
  unfold getByte setByte
  split
  · exact Nat.mod_mod_of_dvd v dvd_rfl
  · rfl

theorem storeWord_at (m : Mem) (a w x : Nat) (h1 : a ≤ x) (h2 : x < a + 8) :
    storeWord m a w x = w / 256 ^ (x - a) % 256 := by
  unfold storeWord
  rw [if_pos]
  exact ⟨h1, by simpa [BYTES_LONG] using h2⟩

theorem storeWord_out (m : Mem) (a w x : Nat) (h : x < a ∨ a + 8 ≤ x) :
    storeWord m a w x = m x := by
  unfold storeWord
  rw [if_neg]
  simp only [BYTES_LONG]
  omega

theorem loadBytes_lt (m : Mem) : ∀ (n a : Nat), loadBytes m a n < 256 ^ n := by
  intro n
  induction n with
  | zero => intro a; simp [loadBytes]
  | succ n ih =>
    intro a
    have h1 := getByte_lt m a
    have h2 := ih (a + 1)
    simp only [loadBytes, pow_succ]
    omega

theorem loadBytes_congr {m1 m2 : Mem} : ∀ {n a : Nat},
    (∀ i, i < n → getByte m1 (a + i) = getByte m2 (a + i)) →
    loadBytes m1 a n = loadBytes m2 a n := by
  intro n
  induction n with
  | zero => intro a _; rfl
  | succ n ih =>
    intro a h
    have h0 := h 0 (by omega)
    simp only [Nat.add_zero] at h0
    have htail : loadBytes m1 (a + 1) n = loadBytes m2 (a + 1) n := by
      apply ih
      intro i hi
      have hx := h (i + 1) (by omega)
      have e : a + (i + 1) = a + 1 + i := by omega
      rw [e] at hx
      exact hx
    simp only [loadBytes]
    rw [h0, htail]

theorem loadBytes_append (m : Mem) (a : Nat) :
    ∀ j k, loadBytes m a (j + k) =
      loadBytes m a j + 256 ^ j * loadBytes m (a + j) k := by
  intro j
  induction j generalizing a with
  | zero => intro k; simp [loadBytes]
  | succ j ih =>
    intro k
    have hadd : j + 1 + k = (j + k) + 1 := by omega
    rw [hadd]
    simp only [loadBytes]
    rw [ih (a + 1) k]
    have haddr : a + 1 + j = a + (j + 1) := by omega
    rw [haddr, pow_succ]
    ring

theorem loadBytes_div_add (m : Mem) (a j k : Nat) :
    loadBytes m a (j + k) / 256 ^ j = loadBytes m (a + j) k := by
  rw [loadBytes_append m a j k,
    Nat.add_mul_div_left _ _ (Nat.pos_pow_of_pos j (by norm_num)),
    Nat.div_eq_of_lt (loadBytes_lt m j a)]
  omega

theorem loadBytes_div (m : Mem) {a n j : Nat} (h : j ≤ n) :
    loadBytes m a n / 256 ^ j = loadBytes m (a + j) (n - j) := by
  have hn : loadBytes m a n = loadBytes m a (j + (n - j)) := by
    rw [show j + (n - j) = n from by omega]
  rw [hn, loadBytes_div_add]

theorem loadBytes_mod_add (m : Mem) (a j k : Nat) :
    loadBytes m a (j + k) % 256 ^ j = loadBytes m a j := by
  rw [loadBytes_append m a j k, Nat.add_mul_mod_self_left]
  exact Nat.mod_eq_of_lt (loadBytes_lt m j a)

theorem loadBytes_mod (m : Mem) {a n j : Nat} (h : j ≤ n) :
    loadBytes m a n % 256 ^ j = loadBytes m a j := by
  have hn : loadBytes m a n = loadBytes m a (j + (n - j)) := by
    rw [show j + (n - j) = n from by omega]
  rw [hn, loadBytes_mod_add]

theorem loadBytes_byte (m : Mem) {a n i : Nat} (h : i < n) :
    loadBytes m a n / 256 ^ i % 256 = getByte m (a + i) := by
  rw [loadBytes_div m (by omega : i ≤ n)]
  have h1 : (256 : Nat) = 256 ^ 1 := by norm_num
  rw [h1, loadBytes_mod m (by omega : 1 ≤ n - i)]
  simp [loadBytes]

theorem loadWord_byte (m : Mem) {a i : Nat} (h : i < 8) :
    loadWord m a / 256 ^ i % 256 = getByte m (a + i) := by
  unfold loadWord
  exact loadBytes_byte m (by simpa [BYTES_LONG] using h)

/-! Bitwise arithmetic: the OR of bit-disjoint parts is addition, the
shift-merge of two adjacent aligned words is the unaligned window, and
the C masks are `%` and rounding down to a multiple. -/

theorem testBit_add_mul_two_pow_lt {a b m j : Nat} (hj : j < m) :
    (a + b * 2 ^ m).testBit j = a.testBit j := by
  have hm : (2 : Nat) ^ m = 2 ^ (m - j - 1) * 2 * 2 ^ j := by
    rw [Nat.mul_assoc, ← Nat.pow_succ']
    rw [← Nat.pow_add]
    congr 1
    omega
  rw [Nat.testBit_to_div_mod, Nat.testBit_to_div_mod, hm]
  rw [show a + b * (2 ^ (m - j - 1) * 2 * 2 ^ j) =
    a + b * (2 ^ (m - j - 1) * 2) * 2 ^ j from by ring]
  rw [Nat.add_mul_div_right _ _ (Nat.pos_pow_of_pos j (by norm_num))]
  rw [show a / 2 ^ j + b * (2 ^ (m - j - 1) * 2) = a / 2 ^ j + b * 2 ^ (m - j - 1) * 2
    from by ring]
  rw [Nat.add_mul_mod_self_right]

theorem testBit_add_mul_two_pow_ge {a b m j : Nat} (ha : a < 2 ^ m) (hj : m ≤ j) :
    (a + b * 2 ^ m).testBit j = b.testBit (j - m) := by
  have hdiv : (a + b * 2 ^ m) / 2 ^ j = b / 2 ^ (j - m) := by
    have h2 : (2 : Nat) ^ j = 2 ^ m * 2 ^ (j - m) := by
      rw [← Nat.pow_add]
      congr 1
      omega
    rw [h2, ← Nat.div_div_eq_div_mul]
    rw [Nat.add_mul_div_right _ _ (Nat.pos_pow_of_pos m (by norm_num))]
    rw [Nat.div_eq_of_lt ha]
    rw [Nat.zero_add]
  rw [Nat.testBit_to_div_mod, Nat.testBit_to_div_mod, hdiv]

theorem lor_eq_add_of_lt {a b m : Nat} (h : a < 2 ^ m) :
    a ||| b * 2 ^ m = a + b * 2 ^ m := by
  apply Nat.eq_of_testBit_eq
  intro j
  rw [Nat.testBit_or]
  have hshift : (b * 2 ^ m).testBit j = (decide (j ≥ m) && b.testBit (j - m)) := by
    rw [show b * 2 ^ m = b <<< m from (Nat.shiftLeft_eq b m).symm, Nat.testBit_shiftLeft]
  rw [hshift]
  by_cases hj : j < m
  · rw [testBit_add_mul_two_pow_lt hj]
    simp [show ¬ j ≥ m from by omega]
  · have hm : m ≤ j := by omega
    rw [testBit_add_mul_two_pow_ge h hm]
    have ha : a.testBit j = false :=
      Nat.testBit_lt_two_pow (Nat.lt_of_lt_of_le h (Nat.pow_le_pow_right (by norm_num) hm))
    simp [ha, hm]

theorem two_pow_mul_eight (k : Nat) : 2 ^ (k * 8) = 256 ^ k := by
  rw [Nat.mul_comm, Nat.pow_mul]

/-- Under the bound established by the loop invariant on `last`, the
shift-merge is exactly the additive recombination of the two byte
windows. -/
theorem mergeWord_eq {last next dist : Nat} (h1 : 1 ≤ dist) (h2 : dist < 8)
    (hlast : last >>> (dist * 8) < 256 ^ (8 - dist)) :
    mergeWord last next dist =
      last >>> (dist * 8) + 256 ^ (8 - dist) * (next % 256 ^ dist) := by
  unfold mergeWord
  have hsplit : SIZE_BOUND = 2 ^ (dist * 8) * 2 ^ ((8 - dist) * 8) := by
    rw [SIZE_BOUND, ← Nat.pow_add]
    congr 1
    omega
  have hB : (next <<< ((BYTES_LONG - dist) * 8)) % SIZE_BOUND =
      (next % 256 ^ dist) * 256 ^ (8 - dist) := by
    rw [Nat.shiftLeft_eq, hsplit, BYTES_LONG]
    rw [Nat.mul_mod_mul_right]
    rw [two_pow_mul_eight, two_pow_mul_eight]
  rw [hB]
  rw [← two_pow_mul_eight (8 - dist)]
  rw [lor_eq_add_of_lt (by rw [two_pow_mul_eight]; exact hlast)]
  ring

theorem loadWord_eq (m : Mem) (a : Nat) : loadWord m a = loadBytes m a 8 := rfl

/-- Shifting a word load right by `dist` bytes keeps its upper window. -/
theorem loadWord_shiftRight (m : Mem) (a : Nat) {dist : Nat} (h : dist ≤ 8) :
    loadWord m a >>> (dist * 8) = loadBytes m (a + dist) (8 - dist) := by
  rw [Nat.shiftRight_eq_div_pow, two_pow_mul_eight, loadWord_eq]
  exact loadBytes_div m h

/-- The merged word produced by one shift-merge iteration is exactly the
little-endian load of the 8 source bytes at the unaligned position
`sA + dist`: the low-address bytes come from the tail of the aligned word
at `sA`, the high-address bytes from the head of the one at `sA + 8`. -/
theorem mergeWord_load (m : Mem) (sA : Nat) {dist last : Nat}
    (h1 : 1 ≤ dist) (h2 : dist < 8)
    (hlast : last >>> (dist * 8) = loadBytes m (sA + dist) (8 - dist)) :
    mergeWord last (loadWord m (sA + 8)) dist = loadWord m (sA + dist) := by
  rw [mergeWord_eq h1 h2 (by rw [hlast]; exact loadBytes_lt m (8 - dist) (sA + dist))]
  rw [hlast]
  rw [loadWord_eq, loadWord_eq, loadBytes_mod m (by omega : dist ≤ 8)]
  have happ := loadBytes_append m (sA + dist) (8 - dist) dist
  rw [show (8 - dist) + dist = 8 from by omega] at happ
  rw [show sA + dist + (8 - dist) = sA + 8 from by omega] at happ
  rw [happ]

/-- `x & WORD_MASK` is `x % 8`. -/
theorem land_word_mask (x : Nat) : x &&& WORD_MASK = x % 8 := by
  have := Nat.and_pow_two_sub_one_eq_mod x 3
  simpa [WORD_MASK, BYTES_LONG] using this

/-- `count & (BYTES_LONG * 8 - 1)` is `count % 64`. -/
theorem land_63 (x : Nat) : x &&& (BYTES_LONG * 8 - 1) = x % 64 := by
  have := Nat.and_pow_two_sub_one_eq_mod x 6
  simpa [BYTES_LONG] using this

/-- `count & ~(BYTES_LONG * 8 - 1)` on the 64-bit type rounds a count
below `2 ^ 64` down to a multiple of 64. -/
theorem alignedCount_eq {x : Nat} (h : x < SIZE_BOUND) :
    alignedCount x = 64 * (x / 64) := by
  unfold alignedCount
  apply Nat.eq_of_testBit_eq
  intro j
  rw [Nat.testBit_and]
  rw [show 64 * (x / 64) = (x / 64) * 2 ^ 6 from by ring_nf]
  rw [show (x : Nat) / 64 = x >>> 6 from by rw [Nat.shiftRight_eq_div_pow]]
  rw [show (x >>> 6) * 2 ^ 6 = (x >>> 6) <<< 6 from by rw [Nat.shiftLeft_eq]]
  rw [Nat.testBit_shiftLeft, Nat.testBit_shiftRight]
  have hmask : (BYTES_LONG * 8 - 1) ^^^ (SIZE_BOUND - 1) = 2 ^ 64 - 64 := by decide
  rw [hmask]
  have hM : (2 : Nat) ^ 64 - 64 = (2 ^ 58 - 1) * 2 ^ 6 := by norm_num
  rw [hM, show ((2:Nat) ^ 58 - 1) * 2 ^ 6 = (2 ^ 58 - 1) <<< 6 from by rw [Nat.shiftLeft_eq]]
  rw [Nat.testBit_shiftLeft, Nat.testBit_two_pow_sub_one]
  by_cases hj : 6 ≤ j
  · rw [show 6 + (j - 6) = j from by omega]
    by_cases hj64 : j - 6 < 58
    · simp [hj, hj64]
    · have hf : x.testBit j = false := by
        apply Nat.testBit_lt_two_pow
        have hb : x < 2 ^ 64 := by simpa [SIZE_BOUND] using h
        calc x < 2 ^ 64 := hb
        _ ≤ 2 ^ j := Nat.pow_le_pow_right (by norm_num) (by omega)
      simp [hf, hj64]
  · simp [show ¬ j ≥ 6 from by omega]

/-- The wrapping `size_t` decrement is exact on positive counts below
`2 ^ 64`. -/
theorem sub1w_eq {c : Nat} (h1 : 1 ≤ c) (h2 : c < SIZE_BOUND) :
    sub1w c = c - 1 := by
  unfold sub1w
  rw [show c + (SIZE_BOUND - 1) = (c - 1) + 1 * SIZE_BOUND from by
    simp only [SIZE_BOUND] at h2 ⊢
    omega]
  rw [Nat.add_mul_mod_self_right]
  apply Nat.mod_eq_of_lt
  simp only [SIZE_BOUND] at h2 ⊢
  omega

/-! Specifications of the byte loops. -/

theorem getByte_storeWord_out (m : Mem) (a w x : Nat) (h : x < a ∨ a + 8 ≤ x) :
    getByte (storeWord m a w) x = getByte m x := by
  unfold getByte
  rw [storeWord_out m a w x h]

theorem copy_remainder_reads :
    ∀ (n : Nat) (m : Mem) (d s : Nat),
      (copy_remainder m d s n).2 = (List.range n).map (fun i => (s + i, 1)) := by
  intro n
  induction n with
  | zero => intro m d s; rfl
  | succ n ih =>
    intro m d s
    simp only [copy_remainder]
    rw [ih]
    rw [List.range_succ_eq_map]
    simp only [List.map_cons, List.map_map, Nat.add_zero]
    congr 1
    apply List.map_congr_left
    intro i _
    simp [Function.comp]
    omega

theorem copy_remainder_frame (x : Nat) :
    ∀ (n : Nat) (m : Mem) (d s : Nat), (x < d ∨ d + n ≤ x) →
      (copy_remainder m d s n).1 x = m x := by
  intro n
  induction n with
  | zero => intro m d s _; rfl
  | succ n ih =>
    intro m d s h
    simp only [copy_remainder]
    rw [ih _ _ _ (by omega)]
    rw [setByte_apply]
    rw [if_neg (by omega)]

theorem copy_remainder_mem :
    ∀ (n : Nat) (m : Mem) (d s : Nat),
      (∀ y, s ≤ y → y < s + n → ¬(d ≤ y ∧ y < d + n)) →
      ∀ x, (copy_remainder m d s n).1 x =
        if d ≤ x ∧ x < d + n then getByte m (s + (x - d)) else m x := by
  intro n
  induction n with
  | zero =>
    intro m d s _ x
    rw [if_neg (by omega)]
    rfl
  | succ n ih =>
    intro m d s hdisj x
    simp only [copy_remainder]
    by_cases hx : d ≤ x ∧ x < d + (n + 1)
    · rw [if_pos hx]
      by_cases hx1 : x = d
      · subst hx1
        rw [copy_remainder_frame _ _ _ _ _ (by omega)]
        rw [setByte_apply, if_pos rfl]
        rw [Nat.mod_eq_of_lt (getByte_lt m s)]
        congr 1
        omega
      · rw [ih _ _ _ ?hd x]
        case hd =>
          intro y hy1 hy2
          have := hdisj y (by omega) (by omega)
          omega
        rw [if_pos (by omega)]
        rw [getByte_setByte]
        rw [if_neg ?hne]
        case hne =>
          have := hdisj (s + 1 + (x - (d + 1))) (by omega) (by omega)
          omega
        congr 1
        omega
    · rw [if_neg hx]
      rw [ih _ _ _ ?hd2 x]
      case hd2 =>
        intro y hy1 hy2
        have := hdisj y (by omega) (by omega)
        omega
      rw [if_neg (by omega)]
      rw [setByte_apply, if_neg (by omega)]

theorem alignLoop_eq :
    ∀ (K d : Nat), kAlign d = K → ∀ (m : Mem) (s cnt : Nat),
      alignLoop m d s cnt =
        ⟨(copy_remainder m d s (kAlign d)).1, d + kAlign d, s + kAlign d,
          sub1w^[kAlign d] cnt, (copy_remainder m d s (kAlign d)).2⟩ := by
  intro K
  induction K using Nat.strong_induction_on with
  | _ K ih =>
    intro d hK m s cnt
    rw [alignLoop]
    by_cases h0 : d &&& WORD_MASK = 0
    · rw [dif_pos h0]
      rw [land_word_mask] at h0
      have hk0 : kAlign d = 0 := by unfold kAlign; omega
      rw [hk0]
      simp [copy_remainder]
    · rw [dif_neg h0]
      rw [land_word_mask] at h0
      have hkpos : kAlign d = kAlign (d + 1) + 1 := by
        unfold kAlign
        omega
      have hlt : kAlign (d + 1) < K := by omega
      rw [ih (kAlign (d + 1)) hlt (d + 1) rfl]
      rw [hkpos]
      simp only [copy_remainder]
      rw [show d + (kAlign (d + 1) + 1) = d + 1 + kAlign (d + 1) from by omega]
      rw [show s + (kAlign (d + 1) + 1) = s + 1 + kAlign (d + 1) from by omega]
      rw [Function.iterate_succ_apply]

theorem iterate_sub1w : ∀ (k c : Nat), k ≤ c → c < SIZE_BOUND → sub1w^[k] c = c - k := by
  intro k
  induction k with
  | zero => intro c _ _; simp
  | succ k ih =>
    intro c h1 h2
    rw [Function.iterate_succ_apply]
    rw [sub1w_eq (by omega) h2]
    rw [ih (c - 1) (by omega) (by simp only [SIZE_BOUND] at h2 ⊢; omega)]
    omega

/-! The shift-merge loop: pointer/count/read-log evolution (independent
of memory contents) and the copied bytes. -/

theorem shiftLoop_ctrl :
    ∀ (cnt : Nat) (m : Mem) (d s dist next : Nat),
      (shiftLoop m d s cnt dist next).d = d + 8 * (cnt / 8) ∧
      (shiftLoop m d s cnt dist next).s = s + 8 * (cnt / 8) ∧
      (shiftLoop m d s cnt dist next).count = cnt % 8 ∧
      (shiftLoop m d s cnt dist next).reads =
        (List.range (cnt / 8)).map (fun i => (s + 8 * (i + 1), 8)) := by
  intro cnt
  induction cnt using Nat.strong_induction_on with
  | _ cnt ih =>
    intro m d s dist next
    rw [shiftLoop]
    by_cases h : BYTES_LONG ≤ cnt
    · rw [dif_pos h]
      simp only [BYTES_LONG] at h ⊢
      obtain ⟨h1, h2, h3, h4⟩ := ih (cnt - 8) (by omega)
        (storeWord m d (mergeWord next (loadWord m (s + 8)) dist))
        (d + 8) (s + 8) dist (loadWord m (s + 8))
      refine ⟨?_, ?_, ?_, ?_⟩
      · rw [h1]; omega
      · rw [h2]; omega
      · rw [h3]; omega
      · rw [h4]
        have ht : cnt / 8 = (cnt - 8) / 8 + 1 := by omega
        rw [ht, List.range_succ_eq_map]
        simp only [List.map_cons, List.map_map]
        refine congrArg₂ _ (by norm_num) ?_
        apply List.map_congr_left
        intro i _
        simp only [Function.comp]
        refine congrArg₂ _ (by omega) rfl
    · rw [dif_neg h]
      simp only [BYTES_LONG] at h
      have h0 : cnt / 8 = 0 := by omega
      have h0' : cnt % 8 = cnt := by omega
      rw [h0, h0']
      simp

theorem shiftLoop_mem :
    ∀ (cnt : Nat) (m : Mem) (d s dist next : Nat),
      1 ≤ dist → dist < 8 →
      (8 ≤ cnt → next >>> (dist * 8) = loadBytes m (s + dist) (8 - dist)) →
      (∀ y, s + dist ≤ y → y < s + dist + cnt → y < d ∨ d + 8 * (cnt / 8) ≤ y) →
      ∀ x, (shiftLoop m d s cnt dist next).mem x =
        if d ≤ x ∧ x < d + 8 * (cnt / 8) then getByte m (s + dist + (x - d)) else m x := by
  intro cnt
  induction cnt using Nat.strong_induction_on with
  | _ cnt ih =>
    intro m d s dist next h1 h2 hnext hdisj x
    rw [shiftLoop]
    by_cases h : BYTES_LONG ≤ cnt
    · rw [dif_pos h]
      simp only [BYTES_LONG] at h ⊢
      have h8 : 8 ≤ 8 * (cnt / 8) := by omega
      have hw : mergeWord next (loadWord m (s + 8)) dist = loadWord m (s + dist) :=
        mergeWord_load m s h1 h2 (hnext h)
      have hnext' : 8 ≤ cnt - 8 →
          (loadWord m (s + 8)) >>> (dist * 8) =
            loadBytes (storeWord m d (mergeWord next (loadWord m (s + 8)) dist))
              (s + 8 + dist) (8 - dist) := by
        intro hc
        rw [loadWord_shiftRight m (s + 8) (le_of_lt h2)]
        apply loadBytes_congr
        intro i hi
        have hy := hdisj (s + 8 + dist + i) (by omega) (by omega)
        rw [getByte_storeWord_out _ _ _ _ (by omega)]
      have hdisj' : ∀ y, s + 8 + dist ≤ y → y < s + 8 + dist + (cnt - 8) →
          y < d + 8 ∨ d + 8 + 8 * ((cnt - 8) / 8) ≤ y := by
        intro y hy1 hy2
        have := hdisj y (by omega) (by omega)
        omega
      have IH := ih (cnt - 8) (by omega)
        (storeWord m d (mergeWord next (loadWord m (s + 8)) dist))
        (d + 8) (s + 8) dist (loadWord m (s + 8)) h1 h2 hnext' hdisj' x
      rw [IH]
      by_cases hx1 : d ≤ x ∧ x < d + 8
      · rw [if_neg (show ¬(d + 8 ≤ x ∧ x < d + 8 + 8 * ((cnt - 8) / 8)) from by omega)]
        rw [if_pos (show d ≤ x ∧ x < d + 8 * (cnt / 8) from by omega)]
        rw [storeWord_at m d _ x (by omega) (by omega)]
        rw [hw]
        rw [loadWord_byte m (show x - d < 8 from by omega)]
      · by_cases hx2 : d + 8 ≤ x ∧ x < d + 8 * (cnt / 8)
        · rw [if_pos (show d + 8 ≤ x ∧ x < d + 8 + 8 * ((cnt - 8) / 8) from by omega)]
          rw [if_pos (show d ≤ x ∧ x < d + 8 * (cnt / 8) from by omega)]
          have hy := hdisj (s + 8 + dist + (x - (d + 8))) (by omega) (by omega)
          rw [getByte_storeWord_out _ _ _ _ (by omega)]
          refine congrArg _ (by omega)
        · rw [if_neg (show ¬(d + 8 ≤ x ∧ x < d + 8 + 8 * ((cnt - 8) / 8)) from by omega)]
          rw [if_neg (show ¬(d ≤ x ∧ x < d + 8 * (cnt / 8)) from by omega)]
          rw [storeWord_out _ _ _ _ (by omega)]
    · rw [dif_neg h]
      simp only [BYTES_LONG] at h
      rw [if_neg (by omega)]

/-! The unrolled block helper. -/

theorem copy_block_spec (m : Mem) (dest src x : Nat) :
    copy_block m dest src x =
      if dest ≤ x ∧ x < dest + 64 then getByte m (src + (x - dest)) else m x := by
  unfold copy_block
  by_cases h7 : dest + 56 ≤ x ∧ x < dest + 56 + 8
  · rw [storeWord_at _ _ _ _ h7.1 (by omega)]
    rw [loadWord_byte m (show x - (dest + 56) < 8 from by omega)]
    rw [if_pos (by omega)]
    refine congrArg _ (by omega)
  rw [storeWord_out _ _ _ _ (by omega)]
  by_cases h6 : dest + 48 ≤ x ∧ x < dest + 48 + 8
  · rw [storeWord_at _ _ _ _ h6.1 (by omega)]
    rw [loadWord_byte m (show x - (dest + 48) < 8 from by omega)]
    rw [if_pos (by omega)]
    refine congrArg _ (by omega)
  rw [storeWord_out _ _ _ _ (by omega)]
  by_cases h5 : dest + 40 ≤ x ∧ x < dest + 40 + 8
  · rw [storeWord_at _ _ _ _ h5.1 (by omega)]
    rw [loadWord_byte m (show x - (dest + 40) < 8 from by omega)]
    rw [if_pos (by omega)]
    refine congrArg _ (by omega)
  rw [storeWord_out _ _ _ _ (by omega)]
  by_cases h4 : dest + 32 ≤ x ∧ x < dest + 32 + 8
  · rw [storeWord_at _ _ _ _ h4.1 (by omega)]
    rw [loadWord_byte m (show x - (dest + 32) < 8 from by omega)]
    rw [if_pos (by omega)]
    refine congrArg _ (by omega)
  rw [storeWord_out _ _ _ _ (by omega)]
  by_cases h3 : dest + 24 ≤ x ∧ x < dest + 24 + 8
  · rw [storeWord_at _ _ _ _ h3.1 (by omega)]
    rw [loadWord_byte m (show x - (dest + 24) < 8 from by omega)]
    rw [if_pos (by omega)]
    refine congrArg _ (by omega)
  rw [storeWord_out _ _ _ _ (by omega)]
  by_cases h2 : dest + 16 ≤ x ∧ x < dest + 16 + 8
  · rw [storeWord_at _ _ _ _ h2.1 (by omega)]
    rw [loadWord_byte m (show x - (dest + 16) < 8 from by omega)]
    rw [if_pos (by omega)]
    refine congrArg _ (by omega)
  rw [storeWord_out _ _ _ _ (by omega)]
  by_cases h1 : dest + 8 ≤ x ∧ x < dest + 8 + 8
  · rw [storeWord_at _ _ _ _ h1.1 (by omega)]
    rw [loadWord_byte m (show x - (dest + 8) < 8 from by omega)]
    rw [if_pos (by omega)]
    refine congrArg _ (by omega)
  rw [storeWord_out _ _ _ _ (by omega)]
  by_cases h0 : dest ≤ x ∧ x < dest + 8
  · rw [storeWord_at _ _ _ _ h0.1 (by omega)]
    rw [loadWord_byte m (show x - (dest) < 8 from by omega)]
    rw [if_pos (by omega)]
  rw [storeWord_out _ _ _ _ (by omega)]
  rw [if_neg (by omega)]

theorem getByte_copy_block (m : Mem) (dest src y : Nat) :
    getByte (copy_block m dest src) y =
      if dest ≤ y ∧ y < dest + 64 then getByte m (src + (y - dest)) else getByte m y := by
  have hs := copy_block_spec m dest src y
  by_cases h : dest ≤ y ∧ y < dest + 64
  · rw [if_pos h] at hs ⊢
    calc getByte (copy_block m dest src) y = (copy_block m dest src y) % 256 := rfl
    _ = (getByte m (src + (y - dest))) % 256 := by rw [hs]
    _ = getByte m (src + (y - dest)) := Nat.mod_eq_of_lt (getByte_lt m _)
  · rw [if_neg h] at hs ⊢
    calc getByte (copy_block m dest src) y = (copy_block m dest src y) % 256 := rfl
    _ = m y % 256 := by rw [hs]
    _ = getByte m y := rfl

theorem memcpy_aligned_zero (m : Mem) (dest src : Nat) :
    __memcpy_aligned m dest src 0 = (m, []) := by
  rw [__memcpy_aligned]
  rw [dif_neg (by omega)]

theorem memcpy_aligned_step (m : Mem) (dest src k : Nat) :
    __memcpy_aligned m dest src (64 * (k + 1)) =
      ((__memcpy_aligned (copy_block m dest src) (dest + 64) (src + 64) (64 * k)).1,
        blockReads src ++
          (__memcpy_aligned (copy_block m dest src) (dest + 64) (src + 64) (64 * k)).2) := by
  rw [__memcpy_aligned]
  rw [dif_pos (by omega)]
  rw [show (BYTES_LONG * 8 : Nat) = 64 from by norm_num [BYTES_LONG]]
  rw [show 64 * (k + 1) - 64 = 64 * k from by omega]

theorem memcpy_aligned_reads :
    ∀ (k : Nat) (m : Mem) (dest src : Nat),
      (__memcpy_aligned m dest src (64 * k)).2 =
        (List.range (8 * k)).map (fun i => (src + 8 * i, 8)) := by
  intro k
  induction k with
  | zero =>
    intro m dest src
    rw [show 64 * 0 = 0 from rfl, memcpy_aligned_zero]
    rfl
  | succ k ih =>
    intro m dest src
    rw [memcpy_aligned_step]
    simp only
    rw [ih]
    rw [show 8 * (k + 1) = 8 + 8 * k from by omega]
    rw [List.range_add]
    rw [List.map_append, List.map_map]
    refine congrArg₂ _ ?_ ?_
    · simp [blockReads, List.range_succ]
    · apply List.map_congr_left
      intro i _
      simp only [Function.comp]
      refine congrArg₂ _ (by omega) rfl

theorem memcpy_aligned_mem :
    ∀ (k : Nat) (m : Mem) (dest src : Nat),
      (∀ y, src ≤ y → y < src + 64 * k → y < dest ∨ dest + 64 * k ≤ y) →
      ∀ x, (__memcpy_aligned m dest src (64 * k)).1 x =
        if dest ≤ x ∧ x < dest + 64 * k then getByte m (src + (x - dest)) else m x := by
  intro k
  induction k with
  | zero =>
    intro m dest src _ x
    rw [show 64 * 0 = 0 from rfl, memcpy_aligned_zero]
    rw [if_neg (by omega)]
  | succ k ih =>
    intro m dest src hdisj x
    rw [memcpy_aligned_step]
    simp only
    have hdisj' : ∀ y, src + 64 ≤ y → y < src + 64 + 64 * k →
        y < dest + 64 ∨ dest + 64 + 64 * k ≤ y := by
      intro y hy1 hy2
      have := hdisj y (by omega) (by omega)
      omega
    rw [ih (copy_block m dest src) (dest + 64) (src + 64) hdisj' x]
    by_cases hx1 : dest ≤ x ∧ x < dest + 64
    · rw [if_neg (by omega)]
      rw [copy_block_spec, if_pos hx1]
      rw [if_pos (by omega)]
    · by_cases hx2 : dest + 64 ≤ x ∧ x < dest + 64 * (k + 1)
      · rw [if_pos (by omega)]
        rw [if_pos (by omega)]
        rw [getByte_copy_block]
        rw [if_neg ?hout]
        case hout =>
          have := hdisj (src + 64 + (x - (dest + 64))) (by omega) (by omega)
          omega
        refine congrArg _ (by omega)
      · rw [if_neg (by omega)]
        rw [copy_block_spec, if_neg (by omega)]
        rw [if_neg (by omega)]

theorem memcpy_aligned_fuel_eq :
    ∀ (k : Nat) (m : Mem) (dest src : Nat), 64 * k < SIZE_BOUND →
      memcpy_aligned_fuel k m dest src (64 * k) =
        some (__memcpy_aligned m dest src (64 * k)) := by
  intro k
  induction k with
  | zero =>
    intro m dest src _
    rw [memcpy_aligned_fuel]
    rw [show 64 * 0 = 0 from rfl, memcpy_aligned_zero]
    rfl
  | succ k ih =>
    intro m dest src hk
    rw [memcpy_aligned_fuel]
    rw [if_pos (by omega)]
    rw [show (64 * (k + 1) + (SIZE_BOUND - BYTES_LONG * 8)) % SIZE_BOUND = 64 * k from by
      simp only [SIZE_BOUND, BYTES_LONG] at hk ⊢
      omega]
    rw [show (BYTES_LONG * 8 : Nat) = 64 from by norm_num [BYTES_LONG]]
    rw [ih (copy_block m dest src) (dest + 64) (src + 64) (by omega)]
    rw [memcpy_aligned_step]
    rfl

/-! Write-frame lemmas: no phase ever stores outside its destination
window, regardless of overlap. -/

theorem memcpy_aligned_frame :
    ∀ (k : Nat) (m : Mem) (dest src x : Nat), (x < dest ∨ dest + 64 * k ≤ x) →
      (__memcpy_aligned m dest src (64 * k)).1 x = m x := by
  intro k
  induction k with
  | zero =>
    intro m dest src x _
    rw [show 64 * 0 = 0 from rfl, memcpy_aligned_zero]
  | succ k ih =>
    intro m dest src x hx
    rw [memcpy_aligned_step]
    simp only
    rw [ih (copy_block m dest src) (dest + 64) (src + 64) x (by omega)]
    rw [copy_block_spec, if_neg (by omega)]

theorem shiftLoop_frame :
    ∀ (cnt : Nat) (m : Mem) (d s dist next x : Nat), (x < d ∨ d + 8 * (cnt / 8) ≤ x) →
      (shiftLoop m d s cnt dist next).mem x = m x := by
  intro cnt
  induction cnt using Nat.strong_induction_on with
  | _ cnt ih =>
    intro m d s dist next x hx
    rw [shiftLoop]
    by_cases h : BYTES_LONG ≤ cnt
    · rw [dif_pos h]
      simp only [BYTES_LONG] at h ⊢
      have h8 : 8 ≤ 8 * (cnt / 8) := by omega
      rw [ih (cnt - 8) (by omega) _ (d + 8) (s + 8) dist _ x (by omega)]
      rw [storeWord_out _ _ _ _ (by omega)]
    · rw [dif_neg h]

theorem kAlign_lt8 (d : Nat) : kAlign d < 8 := by
  unfold kAlign
  omega

theorem kAlign_eq_zero_of_aligned {d : Nat} (h : d % 8 = 0) : kAlign d = 0 := by
  unfold kAlign
  omega

/-! Unfolding equations for the three control branches of `__memcpy`. -/

theorem memcpy_eq_small (eff : Bool) (m : Mem) (dest src count : Nat)
    (h : count < MIN_THRESHOLD) :
    __memcpy eff m dest src count =
      ((copy_remainder m dest src count).1, (copy_remainder m dest src count).2, dest) := by
  unfold __memcpy
  rw [if_pos h]

theorem memcpy_eq_bulk_true (m : Mem) (dest src count : Nat)
    (h : ¬ count < MIN_THRESHOLD) :
    __memcpy true m dest src count =
      ((alignedBranch ⟨m, dest, src, count, []⟩).1,
        (alignedBranch ⟨m, dest, src, count, []⟩).2, dest) := by
  unfold __memcpy alignedBranch
  rw [if_neg h]
  rfl

theorem memcpy_eq_bulk_false (m : Mem) (dest src count : Nat)
    (h : ¬ count < MIN_THRESHOLD) :
    __memcpy false m dest src count =
      (if (alignLoop m dest src count).s &&& WORD_MASK ≠ 0 then
        ((shiftBranch (alignLoop m dest src count)
            ((alignLoop m dest src count).s &&& WORD_MASK)).1,
          (shiftBranch (alignLoop m dest src count)
            ((alignLoop m dest src count).s &&& WORD_MASK)).2, dest)
      else
        ((alignedBranch (alignLoop m dest src count)).1,
          (alignedBranch (alignLoop m dest src count)).2, dest)) := by
  unfold __memcpy shiftBranch alignedBranch
  rw [if_neg h]
  rfl

/-! Behaviour of the two bulk arms, for an arbitrary prefix state. -/

theorem getByte_congr_at {M m1 : Mem} {y : Nat} (h : M y = m1 y) :
    getByte M y = getByte m1 y := by
  unfold getByte
  rw [h]

theorem alignedBranch_mem (m1 : Mem) (d1 s1 c1 : Nat) (rs : List (Nat × Nat))
    (hc : c1 < SIZE_BOUND)
    (hdisj : ∀ y, s1 ≤ y → y < s1 + c1 → y < d1 ∨ d1 + c1 ≤ y) :
    ∀ x, (alignedBranch ⟨m1, d1, s1, c1, rs⟩).1 x =
      if d1 ≤ x ∧ x < d1 + c1 then getByte m1 (s1 + (x - d1)) else m1 x := by
  intro x
  show (copy_remainder (__memcpy_aligned m1 d1 s1 (alignedCount c1)).1
      (d1 + alignedCount c1) (s1 + alignedCount c1) (c1 &&& (BYTES_LONG * 8 - 1))).1 x = _
  rw [land_63, alignedCount_eq hc]
  have hdA : ∀ y, s1 ≤ y → y < s1 + 64 * (c1 / 64) → y < d1 ∨ d1 + 64 * (c1 / 64) ≤ y := by
    intro y hy1 hy2
    have := hdisj y (by omega) (by omega)
    omega
  have hM := memcpy_aligned_mem (c1 / 64) m1 d1 s1 hdA
  rw [copy_remainder_mem (c1 % 64) _ (d1 + 64 * (c1 / 64)) (s1 + 64 * (c1 / 64)) ?hdR x]
  case hdR =>
    intro y hy1 hy2
    have := hdisj y (by omega) (by omega)
    omega
  by_cases hx1 : d1 + 64 * (c1 / 64) ≤ x ∧ x < d1 + 64 * (c1 / 64) + c1 % 64
  · rw [if_pos hx1, if_pos (show d1 ≤ x ∧ x < d1 + c1 from by omega)]
    have hy := hdisj (s1 + 64 * (c1 / 64) + (x - (d1 + 64 * (c1 / 64)))) (by omega) (by omega)
    have hMy : (__memcpy_aligned m1 d1 s1 (64 * (c1 / 64))).1
        (s1 + 64 * (c1 / 64) + (x - (d1 + 64 * (c1 / 64)))) =
        m1 (s1 + 64 * (c1 / 64) + (x - (d1 + 64 * (c1 / 64)))) := by
      rw [hM _, if_neg (by omega)]
    rw [getByte_congr_at hMy]
    refine congrArg _ (by omega)
  · rw [if_neg hx1]
    rw [hM x]
    by_cases hx2 : d1 ≤ x ∧ x < d1 + 64 * (c1 / 64)
    · rw [if_pos hx2, if_pos (show d1 ≤ x ∧ x < d1 + c1 from by omega)]
    · rw [if_neg hx2, if_neg (show ¬(d1 ≤ x ∧ x < d1 + c1) from by omega)]

theorem alignedBranch_frame (m1 : Mem) (d1 s1 c1 : Nat) (rs : List (Nat × Nat))
    (hc : c1 < SIZE_BOUND) :
    ∀ x, (x < d1 ∨ d1 + c1 ≤ x) → (alignedBranch ⟨m1, d1, s1, c1, rs⟩).1 x = m1 x := by
  intro x hx
  show (copy_remainder (__memcpy_aligned m1 d1 s1 (alignedCount c1)).1
      (d1 + alignedCount c1) (s1 + alignedCount c1) (c1 &&& (BYTES_LONG * 8 - 1))).1 x = m1 x
  rw [land_63, alignedCount_eq hc]
  rw [copy_remainder_frame x _ _ _ _ (by omega)]
  exact memcpy_aligned_frame (c1 / 64) m1 d1 s1 x (by omega)

theorem alignedBranch_reads (m1 : Mem) (d1 s1 c1 : Nat) (rs : List (Nat × Nat))
    (hc : c1 < SIZE_BOUND) :
    (alignedBranch ⟨m1, d1, s1, c1, rs⟩).2 =
      rs ++ (List.range (8 * (c1 / 64))).map (fun i => (s1 + 8 * i, 8)) ++
        (List.range (c1 % 64)).map (fun i => (s1 + 64 * (c1 / 64) + i, 1)) := by
  show rs ++ (__memcpy_aligned m1 d1 s1 (alignedCount c1)).2 ++
      (copy_remainder (__memcpy_aligned m1 d1 s1 (alignedCount c1)).1
        (d1 + alignedCount c1) (s1 + alignedCount c1) (c1 &&& (BYTES_LONG * 8 - 1))).2 = _
  rw [land_63, alignedCount_eq hc, memcpy_aligned_reads, copy_remainder_reads]

theorem shiftBranch_mem (m1 : Mem) (d1 s1 c1 dist : Nat) (rs : List (Nat × Nat))
    (hd1 : 1 ≤ dist) (hd2 : dist < 8) (hdle : dist ≤ s1)
    (hdisj : ∀ y, s1 ≤ y → y < s1 + c1 → y < d1 ∨ d1 + c1 ≤ y) :
    ∀ x, (shiftBranch ⟨m1, d1, s1, c1, rs⟩ dist).1 x =
      if d1 ≤ x ∧ x < d1 + c1 then getByte m1 (s1 + (x - d1)) else m1 x := by
  intro x
  show (copy_remainder
      (shiftLoop m1 d1 (s1 - dist) c1 dist (loadWord m1 (s1 - dist))).mem
      (shiftLoop m1 d1 (s1 - dist) c1 dist (loadWord m1 (s1 - dist))).d
      ((shiftLoop m1 d1 (s1 - dist) c1 dist (loadWord m1 (s1 - dist))).s + dist)
      (shiftLoop m1 d1 (s1 - dist) c1 dist (loadWord m1 (s1 - dist))).count).1 x = _
  obtain ⟨hqd, hqs, hqc, -⟩ := shiftLoop_ctrl c1 m1 d1 (s1 - dist) dist (loadWord m1 (s1 - dist))
  rw [hqd, hqs, hqc]
  rw [show s1 - dist + 8 * (c1 / 8) + dist = s1 + 8 * (c1 / 8) from by omega]
  have hnext : 8 ≤ c1 → (loadWord m1 (s1 - dist)) >>> (dist * 8) =
      loadBytes m1 ((s1 - dist) + dist) (8 - dist) :=
    fun _ => loadWord_shiftRight m1 (s1 - dist) (le_of_lt hd2)
  have hdisjS : ∀ y, (s1 - dist) + dist ≤ y → y < (s1 - dist) + dist + c1 →
      y < d1 ∨ d1 + 8 * (c1 / 8) ≤ y := by
    intro y hy1 hy2
    have := hdisj y (by omega) (by omega)
    omega
  have hmem := shiftLoop_mem c1 m1 d1 (s1 - dist) dist (loadWord m1 (s1 - dist))
    hd1 hd2 hnext hdisjS
  rw [copy_remainder_mem (c1 % 8) _ (d1 + 8 * (c1 / 8)) (s1 + 8 * (c1 / 8)) ?hdR x]
  case hdR =>
    intro y hy1 hy2
    have := hdisj y (by omega) (by omega)
    omega
  by_cases hx1 : d1 + 8 * (c1 / 8) ≤ x ∧ x < d1 + 8 * (c1 / 8) + c1 % 8
  · rw [if_pos hx1, if_pos (show d1 ≤ x ∧ x < d1 + c1 from by omega)]
    have hy := hdisj (s1 + 8 * (c1 / 8) + (x - (d1 + 8 * (c1 / 8)))) (by omega) (by omega)
    have hMy : (shiftLoop m1 d1 (s1 - dist) c1 dist (loadWord m1 (s1 - dist))).mem
        (s1 + 8 * (c1 / 8) + (x - (d1 + 8 * (c1 / 8)))) =
        m1 (s1 + 8 * (c1 / 8) + (x - (d1 + 8 * (c1 / 8)))) := by
      rw [hmem _, if_neg (by omega)]
    rw [getByte_congr_at hMy]
    refine congrArg _ (by omega)
  · rw [if_neg hx1]
    rw [hmem x]
    by_cases hx2 : d1 ≤ x ∧ x < d1 + 8 * (c1 / 8)
    · rw [if_pos hx2, if_pos (show d1 ≤ x ∧ x < d1 + c1 from by omega)]
      refine congrArg _ (by omega)
    · rw [if_neg hx2, if_neg (show ¬(d1 ≤ x ∧ x < d1 + c1) from by omega)]

theorem shiftBranch_frame (m1 : Mem) (d1 s1 c1 dist : Nat) (rs : List (Nat × Nat)) :
    ∀ x, (x < d1 ∨ d1 + c1 ≤ x) → (shiftBranch ⟨m1, d1, s1, c1, rs⟩ dist).1 x = m1 x := by
  intro x hx
  show (copy_remainder
      (shiftLoop m1 d1 (s1 - dist) c1 dist (loadWord m1 (s1 - dist))).mem
      (shiftLoop m1 d1 (s1 - dist) c1 dist (loadWord m1 (s1 - dist))).d
      ((shiftLoop m1 d1 (s1 - dist) c1 dist (loadWord m1 (s1 - dist))).s + dist)
      (shiftLoop m1 d1 (s1 - dist) c1 dist (loadWord m1 (s1 - dist))).count).1 x = m1 x
  obtain ⟨hqd, hqs, hqc, -⟩ := shiftLoop_ctrl c1 m1 d1 (s1 - dist) dist (loadWord m1 (s1 - dist))
  rw [hqd, hqs, hqc]
  rw [copy_remainder_frame x _ _ _ _ (by omega)]
  exact shiftLoop_frame c1 m1 d1 (s1 - dist) dist _ x (by omega)

theorem shiftBranch_reads (m1 : Mem) (d1 s1 c1 dist : Nat) (rs : List (Nat × Nat)) :
    (shiftBranch ⟨m1, d1, s1, c1, rs⟩ dist).2 =
      rs ++ (s1 - dist, BYTES_LONG) ::
        (List.range (c1 / 8)).map (fun i => (s1 - dist + 8 * (i + 1), 8)) ++
        (List.range (c1 % 8)).map (fun i => (s1 - dist + 8 * (c1 / 8) + dist + i, 1)) := by
  show rs ++ (s1 - dist, BYTES_LONG) ::
      (shiftLoop m1 d1 (s1 - dist) c1 dist (loadWord m1 (s1 - dist))).reads ++
      (copy_remainder
        (shiftLoop m1 d1 (s1 - dist) c1 dist (loadWord m1 (s1 - dist))).mem
        (shiftLoop m1 d1 (s1 - dist) c1 dist (loadWord m1 (s1 - dist))).d
        ((shiftLoop m1 d1 (s1 - dist) c1 dist (loadWord m1 (s1 - dist))).s + dist)
        (shiftLoop m1 d1 (s1 - dist) c1 dist (loadWord m1 (s1 - dist))).count).2 = _
  obtain ⟨hqd, hqs, hqc, hqr⟩ := shiftLoop_ctrl c1 m1 d1 (s1 - dist) dist (loadWord m1 (s1 - dist))
  rw [hqs, hqc, hqr, copy_remainder_reads]

/-! Master lemmas for `__memcpy`. -/

theorem memcpy_ret (eff : Bool) (m : Mem) (dest src count : Nat) :
    (__memcpy eff m dest src count).2.2 = dest := by
  by_cases h : count < MIN_THRESHOLD
  · rw [memcpy_eq_small eff m dest src count h]
  · cases eff with
    | false =>
      rw [memcpy_eq_bulk_false m dest src count h]
      split <;> rfl
    | true =>
      rw [memcpy_eq_bulk_true m dest src count h]

theorem memcpy_mem (eff : Bool) (m : Mem) (dest src count : Nat)
    (hcnt : count < SIZE_BOUND)
    (hdisj : ∀ y, src ≤ y → y < src + count → y < dest ∨ dest + count ≤ y) :
    ∀ x, (__memcpy eff m dest src count).1 x =
      if dest ≤ x ∧ x < dest + count then getByte m (src + (x - dest)) else m x := by
  intro x
  by_cases h : count < MIN_THRESHOLD
  · rw [memcpy_eq_small eff m dest src count h]
    exact copy_remainder_mem count m dest src
      (fun y hy1 hy2 => by have := hdisj y hy1 hy2; omega) x
  · cases eff with
    | true =>
      rw [memcpy_eq_bulk_true m dest src count h]
      exact alignedBranch_mem m dest src count [] hcnt hdisj x
    | false =>
      have h16 : 16 ≤ count := by simp only [MIN_THRESHOLD, BYTES_LONG] at h; omega
      have hk8 := kAlign_lt8 dest
      rw [memcpy_eq_bulk_false m dest src count h]
      rw [alignLoop_eq (kAlign dest) dest rfl m src count]
      dsimp only
      rw [land_word_mask]
      rw [iterate_sub1w (kAlign dest) count (by omega) hcnt]
      have hM1 := copy_remainder_mem (kAlign dest) m dest src
        (fun y hy1 hy2 => by have := hdisj y (by omega) (by omega); omega)
      split
      next hdist =>
        dsimp only
        rw [shiftBranch_mem _ (dest + kAlign dest) (src + kAlign dest)
          (count - kAlign dest) ((src + kAlign dest) % 8) _
          (by omega) (by omega) (Nat.mod_le _ _) ?hd x]
        case hd =>
          intro y hy1 hy2
          have := hdisj y (by omega) (by omega)
          omega
        by_cases hx1 : dest + kAlign dest ≤ x ∧
            x < dest + kAlign dest + (count - kAlign dest)
        · rw [if_pos hx1, if_pos (show dest ≤ x ∧ x < dest + count from by omega)]
          have hyd := hdisj (src + kAlign dest + (x - (dest + kAlign dest)))
            (by omega) (by omega)
          have hMy : (copy_remainder m dest src (kAlign dest)).1
              (src + kAlign dest + (x - (dest + kAlign dest))) =
              m (src + kAlign dest + (x - (dest + kAlign dest))) := by
            rw [hM1 _, if_neg (by omega)]
          rw [getByte_congr_at hMy]
          refine congrArg _ (by omega)
        · rw [if_neg hx1]
          rw [hM1 x]
          by_cases hx2 : dest ≤ x ∧ x < dest + kAlign dest
          · rw [if_pos hx2, if_pos (show dest ≤ x ∧ x < dest + count from by omega)]
          · rw [if_neg hx2, if_neg (show ¬(dest ≤ x ∧ x < dest + count) from by omega)]
      next hdist =>
        dsimp only
        rw [alignedBranch_mem _ (dest + kAlign dest) (src + kAlign dest)
          (count - kAlign dest) _ (by simp only [SIZE_BOUND] at hcnt ⊢; omega) ?hd2 x]
        case hd2 =>
          intro y hy1 hy2
          have := hdisj y (by omega) (by omega)
          omega
        by_cases hx1 : dest + kAlign dest ≤ x ∧
            x < dest + kAlign dest + (count - kAlign dest)
        · rw [if_pos hx1, if_pos (show dest ≤ x ∧ x < dest + count from by omega)]
          have hyd := hdisj (src + kAlign dest + (x - (dest + kAlign dest)))
            (by omega) (by omega)
          have hMy : (copy_remainder m dest src (kAlign dest)).1
              (src + kAlign dest + (x - (dest + kAlign dest))) =
              m (src + kAlign dest + (x - (dest + kAlign dest))) := by
            rw [hM1 _, if_neg (by omega)]
          rw [getByte_congr_at hMy]
          refine congrArg _ (by omega)
        · rw [if_neg hx1]
          rw [hM1 x]
          by_cases hx2 : dest ≤ x ∧ x < dest + kAlign dest
          · rw [if_pos hx2, if_pos (show dest ≤ x ∧ x < dest + count from by omega)]
          · rw [if_neg hx2, if_neg (show ¬(dest ≤ x ∧ x < dest + count) from by omega)]

theorem memcpy_frame (eff : Bool) (m : Mem) (dest src count : Nat)
    (hcnt : count < SIZE_BOUND) :
    ∀ x, (x < dest ∨ dest + count ≤ x) → (__memcpy eff m dest src count).1 x = m x := by
  intro x hx
  by_cases h : count < MIN_THRESHOLD
  · rw [memcpy_eq_small eff m dest src count h]
    exact copy_remainder_frame x count m dest src hx
  · cases eff with
    | true =>
      rw [memcpy_eq_bulk_true m dest src count h]
      exact alignedBranch_frame m dest src count [] hcnt x hx
    | false =>
      have h16 : 16 ≤ count := by simp only [MIN_THRESHOLD, BYTES_LONG] at h; omega
      have hk8 := kAlign_lt8 dest
      rw [memcpy_eq_bulk_false m dest src count h]
      rw [alignLoop_eq (kAlign dest) dest rfl m src count]
      dsimp only
      rw [land_word_mask]
      rw [iterate_sub1w (kAlign dest) count (by omega) hcnt]
      split
      next hdist =>
        dsimp only
        rw [shiftBranch_frame _ (dest + kAlign dest) (src + kAlign dest)
          (count - kAlign dest) ((src + kAlign dest) % 8) _ x (by omega)]
        exact copy_remainder_frame x (kAlign dest) m dest src (by omega)
      next hdist =>
        dsimp only
        rw [alignedBranch_frame _ (dest + kAlign dest) (src + kAlign dest)
          (count - kAlign dest) _ (by simp only [SIZE_BOUND] at hcnt ⊢; omega) x (by omega)]
        exact copy_remainder_frame x (kAlign dest) m dest src (by omega)

/-! Read-log characterization of `__memcpy`. -/

theorem memcpy_reads_small (eff : Bool) (m : Mem) (dest src count : Nat)
    (h : count < MIN_THRESHOLD) :
    (__memcpy eff m dest src count).2.1 =
      (List.range count).map (fun i => (src + i, 1)) := by
  rw [memcpy_eq_small eff m dest src count h]
  exact copy_remainder_reads count m dest src

theorem memcpy_reads_true (m : Mem) (dest src count : Nat)
    (h : ¬ count < MIN_THRESHOLD) (hcnt : count < SIZE_BOUND) :
    (__memcpy true m dest src count).2.1 =
      (List.range (8 * (count / 64))).map (fun i => (src + 8 * i, 8)) ++
        (List.range (count % 64)).map (fun i => (src + 64 * (count / 64) + i, 1)) := by
  rw [memcpy_eq_bulk_true m dest src count h]
  dsimp only
  rw [alignedBranch_reads m dest src count [] hcnt]
  rw [List.nil_append]

theorem memcpy_reads_false (m : Mem) (dest src count : Nat)
    (h : ¬ count < MIN_THRESHOLD) (hcnt : count < SIZE_BOUND) :
    (__memcpy false m dest src count).2.1 =
      if (src + kAlign dest) % 8 ≠ 0 then
        (List.range (kAlign dest)).map (fun i => (src + i, 1)) ++
          (src + kAlign dest - (src + kAlign dest) % 8, BYTES_LONG) ::
          (List.range ((count - kAlign dest) / 8)).map
            (fun i => (src + kAlign dest - (src + kAlign dest) % 8 + 8 * (i + 1), 8)) ++
          (List.range ((count - kAlign dest) % 8)).map
            (fun i => (src + kAlign dest - (src + kAlign dest) % 8 +
              8 * ((count - kAlign dest) / 8) + (src + kAlign dest) % 8 + i, 1))
      else
        (List.range (kAlign dest)).map (fun i => (src + i, 1)) ++
          (List.range (8 * ((count - kAlign dest) / 64))).map
            (fun i => (src + kAlign dest + 8 * i, 8)) ++
          (List.range ((count - kAlign dest) % 64)).map
            (fun i => (src + kAlign dest + 64 * ((count - kAlign dest) / 64) + i, 1)) := by
  have hk8 := kAlign_lt8 dest
  have h16 : 16 ≤ count := by simp only [MIN_THRESHOLD, BYTES_LONG] at h; omega
  rw [memcpy_eq_bulk_false m dest src count h]
  rw [alignLoop_eq (kAlign dest) dest rfl m src count]
  dsimp only
  rw [land_word_mask]
  rw [iterate_sub1w (kAlign dest) count (by omega) hcnt]
  split
  next hdist =>
    dsimp only
    rw [shiftBranch_reads, copy_remainder_reads]
  next hdist =>
    dsimp only
    rw [alignedBranch_reads _ _ _ _ _ (by simp only [SIZE_BOUND] at hcnt ⊢; omega),
      copy_remainder_reads]

theorem memcpy_reads_bound (eff : Bool) (m : Mem) (dest src count : Nat)
    (hcnt : count < SIZE_BOUND) :
    ∀ p, p ∈ (__memcpy eff m dest src count).2.1 →
      src ≤ p.1 + 7 ∧ p.1 + p.2 ≤ src + count + 7 := by
  intro p hp
  by_cases h : count < MIN_THRESHOLD
  · rw [memcpy_reads_small eff m dest src count h] at hp
    simp only [List.mem_map, List.mem_range] at hp
    obtain ⟨i, hi, rfl⟩ := hp
    constructor <;> simp <;> omega
  · have h16 : 16 ≤ count := by simp only [MIN_THRESHOLD, BYTES_LONG] at h; omega
    cases eff with
    | true =>
      rw [memcpy_reads_true m dest src count h hcnt] at hp
      simp only [List.mem_append, List.mem_map, List.mem_range] at hp
      rcases hp with ⟨i, hi, rfl⟩ | ⟨i, hi, rfl⟩
      · constructor <;> simp <;> omega
      · constructor <;> simp <;> omega
    | false =>
      have hk8 := kAlign_lt8 dest
      rw [memcpy_reads_false m dest src count h hcnt] at hp
      split at hp
      next hdist =>
        have hmle : (src + kAlign dest) % 8 ≤ src + kAlign dest := Nat.mod_le _ _
        have hm8 : (src + kAlign dest) % 8 < 8 := by omega
        simp only [List.mem_append, List.mem_cons, List.mem_map, List.mem_range,
          BYTES_LONG] at hp
        rcases hp with (⟨i, hi, rfl⟩ | heq | ⟨i, hi, rfl⟩) | ⟨i, hi, rfl⟩
        · constructor <;> simp <;> omega
        · rw [heq]
          constructor <;> simp <;> omega
        · constructor <;> simp <;> omega
        · constructor <;> simp <;> omega
      next hdist =>
        simp only [List.mem_append, List.mem_map, List.mem_range] at hp
        rcases hp with (⟨i, hi, rfl⟩ | ⟨i, hi, rfl⟩) | ⟨i, hi, rfl⟩
        · constructor <;> simp <;> omega
        · constructor <;> simp <;> omega
        · constructor <;> simp <;> omega

/-! The claims. -/

/-- Claim C1: for every pair of non-overlapping byte regions and every
count, after `copy(d, s, count)` every destination byte `d[i]` for
`i < count` equals the original source byte `s[i]`, and the returned
value equals the original destination address `d`. -/
theorem C1_copy_correct (eff : Bool) (m : Mem) (dest src count : Nat)
    (hcnt : count < SIZE_BOUND)
    (hsep : dest + count ≤ src ∨ src + count ≤ dest) :
    (∀ i, i < count →
      (__memcpy eff m dest src count).1 (dest + i) = getByte m (src + i)) ∧
    (__memcpy eff m dest src count).2.2 = dest := by
  constructor
  · intro i hi
    rw [memcpy_mem eff m dest src count hcnt (fun y hy1 hy2 => by omega) (dest + i)]
    rw [if_pos (by omega)]
    refine congrArg _ (by omega)
  · exact memcpy_ret eff m dest src count

/-- Witness for C1 at a concrete non-overlapping call. -/
theorem C1_copy_correct_witness :
    (__memcpy false (fun _ => 5) 100 0 20).1 (100 + 7) = getByte (fun _ => 5) (0 + 7) ∧
    (__memcpy false (fun _ => 5) 100 0 20).2.2 = 100 :=
  ⟨(C1_copy_correct false (fun _ => 5) 100 0 20
      (by simp only [SIZE_BOUND]; norm_num) (by omega)).1 7 (by omega),
   (C1_copy_correct false (fun _ => 5) 100 0 20
      (by simp only [SIZE_BOUND]; norm_num) (by omega)).2⟩

/-- Claim C2 (counterexample): on the concrete non-overlapping call
`copy(32, 3, 16)` with the unaligned-access flag off, the routine reads
byte address `0`, which lies outside the source region `[3, 19)`
(the shift-merge path rewinds the source pointer to the word boundary
at address `0` and loads a full word). -/
theorem C2_out_of_range_read_counterexample :
    readsByte (__memcpy false (fun _ => 0) 32 3 16).2.1 0 = true ∧
    (0 : Nat) < 3 ∧ 3 + 16 ≤ 32 := by
  refine ⟨?_, by norm_num, by norm_num⟩
  rw [memcpy_reads_false (fun _ => 0) 32 3 16 (by decide)
    (by simp only [SIZE_BOUND]; norm_num)]
  decide

/-- Claim C2 (amended): every byte address read by `copy(d, s, count)`
lies within `[s - (W-1), s + count + (W-1))`; reads outside
`[s, s + count)` can occur only from the word-aligned enclosure of the
source region on the shift-merge path. -/
theorem C2_reads_word_enclosure (eff : Bool) (m : Mem) (dest src count : Nat)
    (hcnt : count < SIZE_BOUND) :
    ∀ a w, (a, w) ∈ (__memcpy eff m dest src count).2.1 →
      src ≤ a + (BYTES_LONG - 1) ∧ a + w ≤ src + count + (BYTES_LONG - 1) := by
  intro a w hm
  have := memcpy_reads_bound eff m dest src count hcnt (a, w) hm
  simpa [BYTES_LONG] using this

/-- Witness for the amended C2: the word read at address `0` by the
call of the counterexample stays within the enclosure. -/
theorem C2_reads_word_enclosure_witness :
    (3 : Nat) ≤ 0 + (BYTES_LONG - 1) ∧ (0 : Nat) + 8 ≤ 3 + 16 + (BYTES_LONG - 1) :=
  C2_reads_word_enclosure false (fun _ => 0) 32 3 16
    (by simp only [SIZE_BOUND]; norm_num) 0 8
    (by rw [memcpy_reads_false (fun _ => 0) 32 3 16 (by decide)
          (by simp only [SIZE_BOUND]; norm_num)]
        decide)

/-- Claim C3: on the shift-merge path the merged destination word
`(last >> (distance*8)) | (next << ((W-distance)*8))` of two
consecutive aligned source words equals the little-endian load of the
`W` consecutive source bytes at the unaligned position; concretely,
with `W = 8`, a 100-byte source holding `0..99` and `distance = 3`,
the destination bytes `0..99` equal the source bytes exactly. -/
theorem C3_shift_merge_reconstruction :
    (∀ (m : Mem) (sA dist : Nat), 1 ≤ dist → dist < 8 →
      mergeWord (loadWord m sA) (loadWord m (sA + 8)) dist = loadWord m (sA + dist)) ∧
    (∀ i, i < 100 →
      (__memcpy false (fun a => if 3 ≤ a ∧ a < 103 then a - 3 else 251)
        200 3 100).1 (200 + i) = i) := by
  constructor
  · intro m sA dist h1 h2
    exact mergeWord_load m sA h1 h2 (loadWord_shiftRight m sA (le_of_lt h2))
  · intro i hi
    rw [memcpy_mem false (fun a => if 3 ≤ a ∧ a < 103 then a - 3 else 251) 200 3 100
      (by simp only [SIZE_BOUND]; norm_num) (fun y hy1 hy2 => by omega) (200 + i)]
    rw [if_pos (by omega)]
    simp only [getByte]
    rw [if_pos (by omega)]
    omega

/-- Witness for C3: the merge formula applied at a concrete word pair
with `distance = 3`. -/
theorem C3_shift_merge_reconstruction_witness :
    mergeWord (loadWord (fun a => a) 0) (loadWord (fun a => a) (0 + 8)) 3 =
      loadWord (fun a => a) (0 + 3) :=
  C3_shift_merge_reconstruction.1 (fun a => a) 0 3 (by norm_num) (by norm_num)

/-- Claim C4: for every call `copy(d, s, count)`, every byte at an
address outside `[d, d + count)` has the same value after the call as
before it — no phase writes out of range, with or without overlap. -/
theorem C4_no_out_of_range_writes (eff : Bool) (m : Mem) (dest src count : Nat)
    (hcnt : count < SIZE_BOUND) :
    ∀ x, (x < dest ∨ dest + count ≤ x) → (__memcpy eff m dest src count).1 x = m x :=
  memcpy_frame eff m dest src count hcnt

/-- Witness for C4 at a concrete call and out-of-range address. -/
theorem C4_no_out_of_range_writes_witness :
    (__memcpy true (fun _ => 1) 0 50 10).1 40 = (fun _ => (1 : Nat)) 40 :=
  C4_no_out_of_range_writes true (fun _ => 1) 0 50 10
    (by simp only [SIZE_BOUND]; norm_num) 40 (by omega)

/-- Claim C5: for every byte count that is an exact multiple of
`unroll_factor * W = 64`, `__memcpy_aligned` terminates (fuel equal to
the iteration count `k` suffices for the exact wrapping-decrement
loop), copies exactly those `64k` bytes (destination bytes take the
source bytes, everything else is unchanged), and reads exactly `8k`
words, eight per iteration; the helper itself checks nothing. -/
theorem C5_aligned_block_contract (k : Nat) (m : Mem) (dest src : Nat)
    (hk : 64 * k < SIZE_BOUND)
    (hsep : dest + 64 * k ≤ src ∨ src + 64 * k ≤ dest) :
    memcpy_aligned_fuel k m dest src (64 * k) =
      some (__memcpy_aligned m dest src (64 * k)) ∧
    (∀ i, i < 64 * k →
      (__memcpy_aligned m dest src (64 * k)).1 (dest + i) = getByte m (src + i)) ∧
    (∀ x, (x < dest ∨ dest + 64 * k ≤ x) →
      (__memcpy_aligned m dest src (64 * k)).1 x = m x) ∧
    (__memcpy_aligned m dest src (64 * k)).2 =
      (List.range (8 * k)).map (fun i => (src + 8 * i, 8)) := by
  refine ⟨memcpy_aligned_fuel_eq k m dest src hk, ?_, ?_, memcpy_aligned_reads k m dest src⟩
  · intro i hi
    rw [memcpy_aligned_mem k m dest src (fun y hy1 hy2 => by omega) (dest + i)]
    rw [if_pos (by omega)]
    refine congrArg _ (by omega)
  · intro x hx
    exact memcpy_aligned_frame k m dest src x hx

/-- Witness for C5 with one 64-byte block. -/
theorem C5_aligned_block_contract_witness :
    memcpy_aligned_fuel 1 (fun _ => 9) 64 0 (64 * 1) =
      some (__memcpy_aligned (fun _ => 9) 64 0 (64 * 1)) ∧
    (__memcpy_aligned (fun _ => 9) 64 0 (64 * 1)).1 (64 + 5) = getByte (fun _ => 9) (0 + 5) :=
  ⟨(C5_aligned_block_contract 1 (fun _ => 9) 64 0
      (by simp only [SIZE_BOUND]; norm_num) (by omega)).1,
   (C5_aligned_block_contract 1 (fun _ => 9) 64 0
      (by simp only [SIZE_BOUND]; norm_num) (by omega)).2.1 5 (by omega)⟩

/-- Claim C6: for every `count < 2W` the call is a pure byte-by-byte
copy — its result equals the trivial reference byte-copy and every
logged load has width 1 — and the threshold boundary `count = 2W`
also produces byte-exact output via the first bulk-eligible path. -/
theorem C6_small_count_byte_path :
    (∀ (eff : Bool) (m : Mem) (dest src count : Nat), count < 2 * BYTES_LONG →
      (dest + count ≤ src ∨ src + count ≤ dest) →
      (__memcpy eff m dest src count).1 = refByteCopy m dest src count ∧
      ∀ p, p ∈ (__memcpy eff m dest src count).2.1 → p.2 = 1) ∧
    (∀ (eff : Bool) (m : Mem) (dest src : Nat),
      (dest + 2 * BYTES_LONG ≤ src ∨ src + 2 * BYTES_LONG ≤ dest) →
      ∀ i, i < 2 * BYTES_LONG →
        (__memcpy eff m dest src (2 * BYTES_LONG)).1 (dest + i) = getByte m (src + i)) := by
  constructor
  · intro eff m dest src count hsmall hsep
    have hsmall' : count < MIN_THRESHOLD := by
      simp only [MIN_THRESHOLD, BYTES_LONG] at hsmall ⊢
      omega
    constructor
    · funext x
      show _ = if dest ≤ x ∧ x < dest + count then getByte m (src + (x - dest)) else m x
      exact memcpy_mem eff m dest src count
        (by simp only [MIN_THRESHOLD, BYTES_LONG] at hsmall'
            simp only [SIZE_BOUND]
            omega)
        (fun y hy1 hy2 => by omega) x
    · intro p hp
      rw [memcpy_reads_small eff m dest src count hsmall'] at hp
      simp only [List.mem_map, List.mem_range] at hp
      obtain ⟨i, hi, rfl⟩ := hp
      rfl
  · intro eff m dest src hsep i hi
    rw [memcpy_mem eff m dest src (2 * BYTES_LONG)
      (by simp only [SIZE_BOUND, BYTES_LONG]; norm_num)
      (fun y hy1 hy2 => by omega) (dest + i)]
    rw [if_pos (by omega)]
    refine congrArg _ (by omega)

/-- Witness for C6 at counts `2W - 1` and `2W`. -/
theorem C6_small_count_byte_path_witness :
    (__memcpy false (fun _ => 2) 0 100 15).1 = refByteCopy (fun _ => 2) 0 100 15 ∧
    (__memcpy false (fun _ => 2) 0 100 (2 * BYTES_LONG)).1 (0 + 3) =
      getByte (fun _ => 2) (100 + 3) :=
  ⟨(C6_small_count_byte_path.1 false (fun _ => 2) 0 100 15
      (by simp only [BYTES_LONG]; omega) (by omega)).1,
   C6_small_count_byte_path.2 false (fun _ => 2) 0 100
      (by simp only [BYTES_LONG]; omega) 3 (by simp only [BYTES_LONG]; omega)⟩

/-- Claim C7: on the `distance = 0` path, `aligned_count =
count & ~(8W - 1)` is the largest multiple of `unroll_factor * W = 64`
that is at most `count`; the helper copies exactly that many bytes
(reading `8 * (count / 64)` words), both pointers advance by
`aligned_count`, and the remaining count becomes `count mod 64` for the
byte-wise tail — visible in the read log of the call. -/
theorem C7_aligned_count_largest_multiple (count : Nat) (hcnt : count < SIZE_BOUND) :
    (alignedCount count = 64 * (count / 64) ∧
      alignedCount count ≤ count ∧
      (∀ j, 64 ∣ j → j ≤ count → j ≤ alignedCount count) ∧
      count &&& (BYTES_LONG * 8 - 1) = count - alignedCount count) ∧
    (∀ (m : Mem) (dest src : Nat), 16 ≤ count →
      (__memcpy true m dest src count).2.1 =
        (List.range (8 * (count / 64))).map (fun i => (src + 8 * i, 8)) ++
          (List.range (count % 64)).map (fun i => (src + 64 * (count / 64) + i, 1))) := by
  constructor
  · refine ⟨alignedCount_eq hcnt, ?_, ?_, ?_⟩
    · rw [alignedCount_eq hcnt]
      omega
    · intro j hj hjle
      obtain ⟨t, rfl⟩ := hj
      rw [alignedCount_eq hcnt]
      omega
    · rw [land_63, alignedCount_eq hcnt]
      omega
  · intro m dest src h16
    exact memcpy_reads_true m dest src count
      (by simp only [MIN_THRESHOLD, BYTES_LONG]; omega) hcnt

/-- Witness for C7 at `count = 100`. -/
theorem C7_aligned_count_largest_multiple_witness :
    alignedCount 100 = 64 * (100 / 64) ∧
    (__memcpy true (fun _ => 0) 200 0 100).2.1 =
      (List.range (8 * (100 / 64))).map (fun i => ((0 : Nat) + 8 * i, 8)) ++
        (List.range (100 % 64)).map (fun i => ((0 : Nat) + 64 * (100 / 64) + i, 1)) :=
  ⟨(C7_aligned_count_largest_multiple 100 (by simp only [SIZE_BOUND]; norm_num)).1.1,
   (C7_aligned_count_largest_multiple 100 (by simp only [SIZE_BOUND]; norm_num)).2
     (fun _ => 0) 200 0 (by norm_num)⟩

/-- Claim C8: `copy(d, s, 0)` performs no memory access at all — the
memory is returned unchanged and the read log is empty — and returns
`d`. -/
theorem C8_zero_count_noop (eff : Bool) (m : Mem) (dest src : Nat) :
    __memcpy eff m dest src 0 = (m, [], dest) := rfl

/-- Claim C9: the final destination contents are a deterministic
function of the source bytes, the addresses and the count — two calls
with equal source contents but arbitrary different initial destination
contents produce identical final destination bytes. -/
theorem C9_dest_independence (eff : Bool) (m1 m2 : Mem) (dest src count : Nat)
    (hcnt : count < SIZE_BOUND)
    (hsep : dest + count ≤ src ∨ src + count ≤ dest)
    (hsrc : ∀ i, i < count → getByte m1 (src + i) = getByte m2 (src + i)) :
    ∀ i, i < count →
      (__memcpy eff m1 dest src count).1 (dest + i) =
        (__memcpy eff m2 dest src count).1 (dest + i) := by
  intro i hi
  rw [memcpy_mem eff m1 dest src count hcnt (fun y hy1 hy2 => by omega) (dest + i)]
  rw [memcpy_mem eff m2 dest src count hcnt (fun y hy1 hy2 => by omega) (dest + i)]
  rw [if_pos (by omega), if_pos (by omega)]
  have hidx : dest + i - dest = i := by omega
  rw [hidx]
  exact hsrc i hi

/-- Witness for C9: same source bytes, different destination garbage. -/
theorem C9_dest_independence_witness :
    (__memcpy false (fun _ => 3) 100 0 10).1 (100 + 4) =
      (__memcpy false (fun a => if a < 50 then 3 else 77) 100 0 10).1 (100 + 4) :=
  C9_dest_independence false (fun _ => 3) (fun a => if a < 50 then 3 else 77) 100 0 10
    (by simp only [SIZE_BOUND]; norm_num) (by omega) (by decide) 4 (by omega)

/-- Claim C10: for `count ≥ 2W` with the unaligned-access flag off, the
prefix alignment loop runs at most `W - 1` times (one logged byte read
per iteration), the running count never wraps (`count' + k = count`
exactly), on entry to the shift-merge branch the count is at least
`W + 1`, and therefore the shift-merge word loop performs at least one
iteration (its read log is non-empty). -/
theorem C10_prefix_iterations_bound (m : Mem) (dest src count : Nat)
    (h16 : 16 ≤ count) (hcnt : count < SIZE_BOUND) :
    (alignLoop m dest src count).reads.length = kAlign dest ∧
    kAlign dest ≤ BYTES_LONG - 1 ∧
    (alignLoop m dest src count).count + kAlign dest = count ∧
    BYTES_LONG + 1 ≤ (alignLoop m dest src count).count ∧
    (∀ (m2 : Mem) (d2 sA dist next : Nat),
      (shiftLoop m2 d2 sA (alignLoop m dest src count).count dist next).reads ≠ []) := by
  have hk8 := kAlign_lt8 dest
  rw [alignLoop_eq (kAlign dest) dest rfl m src count]
  dsimp only
  rw [iterate_sub1w (kAlign dest) count (by omega) hcnt]
  refine ⟨?_, by simp only [BYTES_LONG]; omega, by omega,
    by simp only [BYTES_LONG]; omega, ?_⟩
  · rw [copy_remainder_reads]
    simp
  · intro m2 d2 sA dist next
    obtain ⟨-, -, -, hr⟩ := shiftLoop_ctrl (count - kAlign dest) m2 d2 sA dist next
    rw [hr]
    intro hcon
    rw [List.map_eq_nil_iff, List.range_eq_nil] at hcon
    omega

/-- Witness for C10 at a concrete unaligned destination. -/
theorem C10_prefix_iterations_bound_witness :
    (alignLoop (fun _ => 0) 5 0 16).reads.length = kAlign 5 ∧
    (alignLoop (fun _ => 0) 5 0 16).count + kAlign 5 = 16 :=
  ⟨(C10_prefix_iterations_bound (fun _ => 0) 5 0 16 (by norm_num)
      (by simp only [SIZE_BOUND]; norm_num)).1,
   (C10_prefix_iterations_bound (fun _ => 0) 5 0 16 (by norm_num)
      (by simp only [SIZE_BOUND]; norm_num)).2.2.1⟩
